import Mathlib

/-!
Verification of the Sentinel coverage viewer (`app.py`).

The development shallowly embeds the pure logic of the script:
* timezone-aware UTC datetimes become `DT` (a calendar-day number plus a
  time-of-day in seconds); `datetime.date()` is the `day` projection;
* the regex `DATE_RE = r"\b(20\d{2}-\d{2}-\d{2})\b"` and `re.findall`
  become an explicit left-to-right scanner over the character list;
* `parse_date_ymd`, `extract_dates_from_properties`,
  `feature_has_target_date`, `same_phase` and `get_reference_date` are
  translated function by function;
* the coverage-union accumulation loop and the guarded percentage
  readout are embedded with the geometry operations abstracted as
  parameters (they are third-party shapely calls), keeping the exact
  control flow of the script.
-/

namespace SentinelApp

/-- A timezone-aware UTC datetime: `day` is the proleptic-Gregorian day
number (days since 1970-01-01, negative before), `tod` the time of day in
seconds.  `datetime.date()` is the `day` field; comparison of datetimes is
lexicographic on `(day, tod)`. -/
@[ext]
structure DT where
  day : Int
  tod : Nat
deriving DecidableEq, Repr

instance : LE DT := ⟨fun a b => a.day < b.day ∨ (a.day = b.day ∧ a.tod ≤ b.tod)⟩

instance : LT DT := ⟨fun a b => a.day < b.day ∨ (a.day = b.day ∧ a.tod < b.tod)⟩

theorem DT.le_def (a b : DT) : a ≤ b ↔ (a.day < b.day ∨ (a.day = b.day ∧ a.tod ≤ b.tod)) :=
  Iff.rfl

theorem DT.lt_def (a b : DT) : a < b ↔ (a.day < b.day ∨ (a.day = b.day ∧ a.tod < b.tod)) :=
  Iff.rfl

instance (a b : DT) : Decidable (a ≤ b) :=
  inferInstanceAs (Decidable (a.day < b.day ∨ (a.day = b.day ∧ a.tod ≤ b.tod)))

instance (a b : DT) : Decidable (a < b) :=
  inferInstanceAs (Decidable (a.day < b.day ∨ (a.day = b.day ∧ a.tod < b.tod)))

instance : IsTotal DT (· ≤ ·) := ⟨by
  intro a b
  rw [DT.le_def, DT.le_def]
  omega⟩

instance : IsTrans DT (· ≤ ·) := ⟨by
  intro a b c hab hbc
  rw [DT.le_def] at *
  omega⟩

instance : IsAntisymm DT (· ≤ ·) := ⟨by
  intro a b hab hba
  rw [DT.le_def] at *
  ext <;> omega⟩

instance : IsRefl DT (· ≤ ·) := ⟨by
  intro a
  rw [DT.le_def]
  omega⟩

theorem DT.le_total (a b : DT) : a ≤ b ∨ b ≤ a := IsTotal.total a b

theorem DT.le_trans {a b c : DT} (hab : a ≤ b) (hbc : b ≤ c) : a ≤ c :=
  IsTrans.trans a b c hab hbc

theorem DT.le_antisymm {a b : DT} (hab : a ≤ b) (hba : b ≤ a) : a = b :=
  IsAntisymm.antisymm a b hab hba

theorem DT.le_refl (a : DT) : a ≤ a := IsRefl.refl a

theorem DT.lt_iff_le_not_le {a b : DT} : a < b ↔ (a ≤ b ∧ ¬ b ≤ a) := by
  rw [DT.lt_def, DT.le_def, DT.le_def]
  omega

/-- Python `min` over two datetimes (keeps the accumulator on ties; ties are
identical values since the order is antisymmetric). -/
def dtmin (acc x : DT) : DT := if acc ≤ x then acc else x

/-- Python `max` over two datetimes. -/
def dtmax (acc x : DT) : DT := if x ≤ acc then acc else x

/-- Gregorian leap-year rule, as in Python `datetime`. -/
def isLeapYear (y : Nat) : Bool := y % 4 == 0 && (y % 100 != 0 || y % 400 == 0)

/-- Length of month `m` in year `y` (Python `calendar`/`datetime` rule). -/
def daysInMonth (y m : Nat) : Nat :=
  if m = 2 then (if isLeapYear y then 29 else 28)
  else if m = 4 ∨ m = 6 ∨ m = 9 ∨ m = 11 then 30
  else 31

/-- Days since 0000-03-01 of civil date `y-m-d` (valid for `1 ≤ y`,
`1 ≤ m ≤ 12`): the standard era-based civil-from-days algorithm, kept in
`Nat` so that all divisions are floor divisions. -/
def daysFromCivilNat (y m d : Nat) : Nat :=
  let y2 := y - (if m ≤ 2 then 1 else 0)
  let era := y2 / 400
  let yoe := y2 % 400
  let mp := (m + 9) % 12
  let doy := (153 * mp + 2) / 5 + d - 1
  let doe := yoe * 365 + yoe / 4 - yoe / 100 + doy
  era * 146097 + doe

/-- Day number of civil date `y-m-d` relative to the Unix epoch 1970-01-01,
matching Python `datetime.date` subtraction semantics. -/
def daysFromCivil (y m d : Nat) : Int :=
  (daysFromCivilNat y m d : Int) - 719468

/-- Python regex `\w` on the data at hand: ASCII letters, digits and
underscore (the plan files and targets are ASCII). -/
def wordB (c : Char) : Bool := c.isAlphanum || c = '_'

/-- A `\b` word boundary next to a date candidate: satisfied at the edge of
the string (`none`) or against a non-word character. -/
def boundOk : Option Char → Bool
  | none => true
  | some c => !wordB c

/-- The body of `DATE_RE = \b(20\d{2}-\d{2}-\d{2})\b`: ten characters of
shape `20dd-dd-dd`. -/
def shape10 (t : List Char) : Bool :=
  t.length == 10 &&
  t.getD 0 ' ' == '2' && t.getD 1 ' ' == '0' &&
  (t.getD 2 ' ').isDigit && (t.getD 3 ' ').isDigit &&
  t.getD 4 ' ' == '-' &&
  (t.getD 5 ' ').isDigit && (t.getD 6 ' ').isDigit &&
  t.getD 7 ' ' == '-' &&
  (t.getD 8 ' ').isDigit && (t.getD 9 ' ').isDigit

/-- Does `DATE_RE` match at the start of `cs`, where `prev` is the character
just before `cs` (`none` at the start of the string)?  The pattern is
fixed-length, so a match is: the next ten characters have the date shape and
both `\b` anchors hold. -/
def headMatch (prev : Option Char) (cs : List Char) : Bool :=
  shape10 (cs.take 10) && boundOk prev && boundOk (cs.drop 10).head?

/-- `re.findall(DATE_RE, s)` on character lists: scan left to right; on a
match emit the ten matched characters and resume after them (Python matches
are non-overlapping), otherwise advance one character.  `prev` tracks the
character preceding the current position for the leading `\b`.  The scan is
driven by a fuel argument (any fuel `≥ cs.length` gives the loop's value)
so that the definition is structurally recursive. -/
def scanFuel : Nat → Option Char → List Char → List (List Char)
  | 0, _, _ => []
  | _ + 1, _, [] => []
  | fuel + 1, prev, c :: rest =>
    if headMatch prev (c :: rest) then
      (c :: rest).take 10 ::
        scanFuel fuel ((c :: rest).take 10).getLast? ((c :: rest).drop 10)
    else
      scanFuel fuel (some c) rest

/-- The scanner at adequate fuel. -/
def scanAux (prev : Option Char) (cs : List Char) : List (List Char) :=
  scanFuel cs.length prev cs

/-- `DATE_RE.findall(s)`. -/
def findall (s : String) : List String :=
  (scanAux none s.data).map (fun cs => String.mk cs)

/-- A GeoJSON property value as the script sees it: `None`, a `str`, or any
other value (whose `str(v)` rendering is the carried string). -/
inductive PValue where
  | vnone
  | vstr (s : String)
  | vother (repr : String)
deriving DecidableEq, Repr

/-- The string the scanning loops work on for one property value: `None` is
skipped, strings are used as-is, anything else is coerced with `str(v)`. -/
def pvalToString : PValue → Option String
  | .vnone => none
  | .vstr s => some s
  | .vother r => some r

/-- Numeric value of a decimal digit character. -/
def digitVal (c : Char) : Nat := c.toNat - '0'.toNat

/-- `parse_date_ymd`: `datetime.strptime(s[:10], "%Y-%m-%d")` at UTC
midnight, `None` on failure.  Modelled for the zero-padded ten-character
form `YYYY-MM-DD` (every `DATE_RE` hit has exactly that form); `strptime`
validates the month range, the day range for the month (with leap years)
and `datetime.MINYEAR = 1`. -/
def parse_date_ymd (s : String) : Option DT :=
  match s.data.take 10 with
  | [y1, y2, y3, y4, h1, m1, m2, h2, d1, d2] =>
    if y1.isDigit ∧ y2.isDigit ∧ y3.isDigit ∧ y4.isDigit ∧ h1 = '-' ∧
       m1.isDigit ∧ m2.isDigit ∧ h2 = '-' ∧ d1.isDigit ∧ d2.isDigit then
      let y := 1000 * digitVal y1 + 100 * digitVal y2 + 10 * digitVal y3 + digitVal y4
      let mo := 10 * digitVal m1 + digitVal m2
      let da := 10 * digitVal d1 + digitVal d2
      if 1 ≤ y ∧ 1 ≤ mo ∧ mo ≤ 12 ∧ 1 ≤ da ∧ da ≤ daysInMonth y mo then
        some ⟨daysFromCivil y mo da, 0⟩
      else
        none
    else
      none
  | _ => none

/-- `extract_dates_from_properties`: scan every non-`None` property value
(coerced to string), run `DATE_RE.findall` on it, parse each hit with
`parse_date_ymd`, and append the successfully parsed dates in order. -/
def extract_dates_from_properties (props : List PValue) : List DT :=
  props.foldl
    (fun dates v =>
      match pvalToString v with
      | none => dates
      | some s =>
        (findall s).foldl
          (fun ds hit =>
            match parse_date_ymd hit with
            | some dt => ds ++ [dt]
            | none => ds)
          dates)
    []

/-- `feature_has_target_date`: some non-`None` property value (coerced to
string) has a `DATE_RE` hit equal to the target string. -/
def feature_has_target_date (props : List PValue) (target_ymd : String) : Bool :=
  props.any fun v =>
    match pvalToString v with
    | none => false
    | some s => (findall s).contains target_ymd

/-- `sorted(set(dates))` for datetimes: the distinct values in ascending
order. -/
def sortedSet (dates : List DT) : List DT :=
  List.insertionSort (· ≤ ·) dates.dedup

/-- The per-satellite reference-date list built by
`load_reference_dates_and_gdfs`: extend with every feature's extracted
dates, then `sorted(set(...))`. -/
def load_reference_dates (feats : List (List PValue)) : List DT :=
  sortedSet (feats.foldl (fun dates props => dates ++ extract_dates_from_properties props) [])

/-- `same_phase`: the calendar-day difference (`.date()` drops the time of
day) is `0` modulo the period.  Python `%` on a positive modulus is
`Int.emod`. -/
def same_phase (chosen ref : DT) (period_days : Nat) : Bool :=
  (chosen.day - ref.day).emod (period_days : Int) == 0

/-- `get_reference_date`, translated clause by clause:
* empty reference list → `None`;
* otherwise filter the same-phase references; if any, sort them and return
  the last one `≤ chosen` (scanning the sorted list in reverse), else the
  first of the sorted list;
* otherwise anchor at `max(r ≤ chosen, default=min(refs))`, and return
  `chosen` shifted back by `(chosen.date() - anchor.date()).days % period`
  days, with the time of day reset to midnight UTC. -/
def get_reference_date (chosen : DT) (reference_dates : List DT) (period_days : Nat) :
    Option DT :=
  match reference_dates with
  | [] => none
  | r0 :: rs =>
    let all := r0 :: rs
    let phaseMatches := all.filter (fun r => same_phase chosen r period_days)
    match phaseMatches with
    | m :: ms =>
      let sorted := List.insertionSort (· ≤ ·) (m :: ms)
      match sorted.reverse.find? (fun r => decide (r ≤ chosen)) with
      | some r => some r
      | none => some (sorted.headD m)
    | [] =>
      let below := all.filter (fun r => decide (r ≤ chosen))
      let anchor :=
        match below with
        | b :: bs => bs.foldl dtmax b
        | [] => rs.foldl dtmin r0
      let shift := (chosen.day - anchor.day).emod (period_days : Int)
      some ⟨chosen.day - shift, 0⟩

/-- One satellite's data as the map-rendering loop sees it: the resolved
reference day (`refs.get(sat)`, `None` when the resolver returned `None`)
and the plan's features, each a property map plus its geometry.  The
geometry type is abstract: the loop only intersects, unions and tests
emptiness through the parameters below (shapely calls in the source). -/
structure SatLayer (G : Type) where
  refDay : Option String
  feats : List (List PValue × G)

/-- One iteration of the satellite-layer loop, updating `coverage_union`:
skip a satellite when its reference day is `None` or its frame is empty;
keep features whose properties match the reference day; when an AOI is
present restrict to features intersecting it; skip when nothing is left;
and only when an AOI is present fold the kept geometries' union into the
accumulator (`None` until the first contribution). -/
def sat_contribution {G : Type} (aoiPresent : Bool) (inter : G → Bool)
    (subUnion : List G → G) (gUnion : G → G → G) (acc : Option G) (sat : SatLayer G) :
    Option G :=
  match sat.refDay with
  | none => acc
  | some ref_day =>
    if sat.feats.isEmpty then acc
    else
      let keep := sat.feats.filter (fun f => feature_has_target_date f.1 ref_day)
      if keep.isEmpty then acc
      else
        let sub := if aoiPresent then keep.filter (fun f => inter f.2) else keep
        if sub.isEmpty then acc
        else if aoiPresent then
          match acc with
          | none => some (subUnion (sub.map Prod.snd))
          | some c => some (gUnion c (subUnion (sub.map Prod.snd)))
        else acc

/-- The satellite-layer loop (the `for` loop as accumulator recursion over
`sat_contribution`); the whole loop starts from `None`. -/
def coverage_union_loop {G : Type} (aoiPresent : Bool) (inter : G → Bool)
    (subUnion : List G → G) (gUnion : G → G → G) (acc : Option G) :
    List (SatLayer G) → Option G
  | [] => acc
  | sat :: rest =>
    coverage_union_loop aoiPresent inter subUnion gUnion
      (sat_contribution aoiPresent inter subUnion gUnion acc sat) rest

/-- The guarded percentage readout: shown only when the AOI is loaded and
`coverage_union` is not `None`; the area computation (`pct`) returns `none`
when the `try` block raises, and then nothing is shown. -/
def coverage_readout {G Q : Type} (aoiIsSome : Bool) (cov : Option G) (pct : G → Option Q) :
    Option Q :=
  if aoiIsSome then
    match cov with
    | some g => pct g
    | none => none
  else none

end SentinelApp

-- sanity checks for the resolver on the spec's example
example :
    SentinelApp.get_reference_date ⟨SentinelApp.daysFromCivil 2024 1 20, 0⟩
      [⟨SentinelApp.daysFromCivil 2024 1 1, 0⟩, ⟨SentinelApp.daysFromCivil 2024 1 13, 0⟩] 12 =
      some ⟨SentinelApp.daysFromCivil 2024 1 13, 0⟩ := by decide
example :
    SentinelApp.get_reference_date ⟨SentinelApp.daysFromCivil 2024 1 20, 0⟩
      [⟨SentinelApp.daysFromCivil 2024 1 1, 0⟩] 12 =
      some ⟨SentinelApp.daysFromCivil 2024 1 13, 0⟩ := by decide
example :
    SentinelApp.parse_date_ymd "2024-13-45" = none := by decide
example :
    SentinelApp.parse_date_ymd "2024-02-29" = some ⟨SentinelApp.daysFromCivil 2024 2 29, 0⟩ := by
  decide
example :
    SentinelApp.parse_date_ymd "2023-02-29" = none := by decide
example :
    SentinelApp.extract_dates_from_properties [.vstr "a 2024-13-45 b"] = [] := by decide
example :
    SentinelApp.feature_has_target_date [.vstr "valid_from=2024-05-02T00:00Z"] "2024-05-02" =
      false := by decide
example :
    SentinelApp.feature_has_target_date [.vstr "date: 2024-05-02 "] "2024-05-02" = true := by
  decide

namespace SentinelApp

/-! ### Helper lemmas about the datetime order and Python `max`/`min` folds -/

theorem DT.lt_of_le_of_ne {a b : DT} (hle : a ≤ b) (hne : a ≠ b) : a < b := by
  rw [DT.le_def] at hle
  rw [DT.lt_def]
  by_cases hd : a.day = b.day
  · have ht : a.tod ≠ b.tod := fun h => hne (DT.ext hd h)
    omega
  · omega

theorem foldl_dtmax_spec (bs : List DT) (b : DT) :
    (bs.foldl dtmax b = b ∨ bs.foldl dtmax b ∈ bs) ∧
      b ≤ bs.foldl dtmax b ∧ ∀ x ∈ bs, x ≤ bs.foldl dtmax b := by
  induction bs generalizing b with
  | nil => exact ⟨Or.inl rfl, DT.le_refl b, by simp⟩
  | cons x xs ih =>
    have hstep : (x :: xs).foldl dtmax b = xs.foldl dtmax (dtmax b x) := rfl
    obtain ⟨hmem, hacc, hall⟩ := ih (dtmax b x)
    have hbx : b ≤ dtmax b x ∧ x ≤ dtmax b x := by
      unfold dtmax
      by_cases h : x ≤ b
      · rw [if_pos h]
        exact ⟨DT.le_refl b, h⟩
      · rw [if_neg h]
        rcases DT.le_total b x with h' | h'
        · exact ⟨h', DT.le_refl x⟩
        · exact absurd h' h
    have hmax_cases : dtmax b x = b ∨ dtmax b x = x := by
      unfold dtmax
      by_cases h : x ≤ b
      · rw [if_pos h]
        exact Or.inl rfl
      · rw [if_neg h]
        exact Or.inr rfl
    refine ⟨?_, ?_, ?_⟩
    · rw [hstep]
      rcases hmem with h | h
      · rcases hmax_cases with h' | h'
        · exact Or.inl (h.trans h')
        · exact Or.inr (by rw [h, h']; exact List.mem_cons_self x xs)
      · exact Or.inr (List.mem_cons_of_mem x h)
    · rw [hstep]
      exact DT.le_trans hbx.1 hacc
    · intro y hy
      rw [hstep]
      rcases List.mem_cons.mp hy with h | h
      · subst h
        exact DT.le_trans hbx.2 hacc
      · exact hall y h

theorem foldl_dtmin_spec (bs : List DT) (b : DT) :
    (bs.foldl dtmin b = b ∨ bs.foldl dtmin b ∈ bs) ∧
      bs.foldl dtmin b ≤ b ∧ ∀ x ∈ bs, bs.foldl dtmin b ≤ x := by
  induction bs generalizing b with
  | nil => exact ⟨Or.inl rfl, DT.le_refl b, by simp⟩
  | cons x xs ih =>
    have hstep : (x :: xs).foldl dtmin b = xs.foldl dtmin (dtmin b x) := rfl
    obtain ⟨hmem, hacc, hall⟩ := ih (dtmin b x)
    have hbx : dtmin b x ≤ b ∧ dtmin b x ≤ x := by
      unfold dtmin
      by_cases h : b ≤ x
      · rw [if_pos h]
        exact ⟨DT.le_refl b, h⟩
      · rw [if_neg h]
        rcases DT.le_total b x with h' | h'
        · exact absurd h' h
        · exact ⟨h', DT.le_refl x⟩
    have hmin_cases : dtmin b x = b ∨ dtmin b x = x := by
      unfold dtmin
      by_cases h : b ≤ x
      · rw [if_pos h]
        exact Or.inl rfl
      · rw [if_neg h]
        exact Or.inr rfl
    refine ⟨?_, ?_, ?_⟩
    · rw [hstep]
      rcases hmem with h | h
      · rcases hmin_cases with h' | h'
        · exact Or.inl (h.trans h')
        · exact Or.inr (by rw [h, h']; exact List.mem_cons_self x xs)
      · exact Or.inr (List.mem_cons_of_mem x h)
    · rw [hstep]
      exact DT.le_trans hacc hbx.1
    · intro y hy
      rw [hstep]
      rcases List.mem_cons.mp hy with h | h
      · subst h
        exact DT.le_trans hacc hbx.2
      · exact hall y h

/-- `find?` on a list sorted in descending order: a hit for the
downward-closed predicate `· ≤ c` is the greatest element satisfying it;
no hit means no element satisfies it. -/
theorem find_desc (c : DT) (l : List DT) (hl : l.Pairwise (fun a b => b ≤ a)) :
    (∀ x, l.find? (fun r => decide (r ≤ c)) = some x →
        x ∈ l ∧ x ≤ c ∧ ∀ y ∈ l, y ≤ c → y ≤ x) ∧
      (l.find? (fun r => decide (r ≤ c)) = none → ∀ y ∈ l, ¬ y ≤ c) := by
  induction l with
  | nil =>
    constructor
    · intro x hx
      simp at hx
    · intro _ y hy
      simp at hy
  | cons a l ih =>
    have hrel : ∀ b ∈ l, b ≤ a := (List.pairwise_cons.mp hl).1
    have htl := ih (List.pairwise_cons.mp hl).2
    by_cases ha : a ≤ c
    · rw [List.find?_cons_of_pos l (by simpa using ha)]
      constructor
      · intro x hx
        have hxa : x = a := by
          injection hx with h
          exact h.symm
        subst hxa
        refine ⟨List.mem_cons_self x l, ha, ?_⟩
        intro y hy _
        rcases List.mem_cons.mp hy with h | h
        · subst h
          exact DT.le_refl y
        · exact hrel y h
      · intro hnone
        simp at hnone
    · rw [List.find?_cons_of_neg l (by simpa using ha)]
      constructor
      · intro x hx
        obtain ⟨hmem, hxc, hbest⟩ := htl.1 x hx
        refine ⟨List.mem_cons_of_mem a hmem, hxc, ?_⟩
        intro y hy hyc
        rcases List.mem_cons.mp hy with h | h
        · exact absurd (h ▸ hyc) ha
        · exact hbest y h hyc
      · intro hnone y hy
        rcases List.mem_cons.mp hy with h | h
        · exact h ▸ ha
        · exact htl.2 hnone y h

/-! ### Case analysis of `get_reference_date` -/

/-- When the same-phase filter is non-empty, the resolver returns an element
of it: the greatest one `≤ chosen` when one exists, otherwise the least
element. -/
theorem resolver_phase_case (chosen r0 : DT) (rs : List DT) (p : Nat) (m : DT) (ms : List DT)
    (hM : (r0 :: rs).filter (fun r => same_phase chosen r p) = m :: ms) :
    ∃ x, get_reference_date chosen (r0 :: rs) p = some x ∧ x ∈ m :: ms ∧
      ((x ≤ chosen ∧ ∀ y ∈ m :: ms, y ≤ chosen → y ≤ x) ∨
        ((∀ y ∈ m :: ms, ¬ y ≤ chosen) ∧ ∀ y ∈ m :: ms, x ≤ y)) := by
  have hsorted : (List.insertionSort (· ≤ ·) (m :: ms)).Sorted (· ≤ ·) :=
    List.sorted_insertionSort (· ≤ ·) (m :: ms)
  have hdesc : (List.insertionSort (· ≤ ·) (m :: ms)).reverse.Pairwise (fun a b => b ≤ a) :=
    List.pairwise_reverse.mpr hsorted
  have hfd := find_desc chosen (List.insertionSort (· ≤ ·) (m :: ms)).reverse hdesc
  cases hfind :
      (List.insertionSort (· ≤ ·) (m :: ms)).reverse.find? (fun r => decide (r ≤ chosen)) with
  | some x =>
    obtain ⟨hmem, hxc, hbest⟩ := hfd.1 x hfind
    refine ⟨x, ?_, ?_, Or.inl ⟨hxc, ?_⟩⟩
    · simp only [get_reference_date]
      rw [hM]
      dsimp only
      rw [hfind]
    · exact (List.mem_insertionSort (· ≤ ·)).mp (List.mem_reverse.mp hmem)
    · intro y hy hyc
      exact hbest y (List.mem_reverse.mpr ((List.mem_insertionSort (· ≤ ·)).mpr hy)) hyc
  | none =>
    have hnone := hfd.2 hfind
    cases hs : List.insertionSort (· ≤ ·) (m :: ms) with
    | nil =>
      have hmm : m ∈ List.insertionSort (· ≤ ·) (m :: ms) :=
        (List.mem_insertionSort (· ≤ ·)).mpr (List.mem_cons_self m ms)
      rw [hs] at hmm
      simp at hmm
    | cons s0 ss =>
      have hs0mem : s0 ∈ m :: ms := by
        have : s0 ∈ List.insertionSort (· ≤ ·) (m :: ms) := by
          rw [hs]
          exact List.mem_cons_self s0 ss
        exact (List.mem_insertionSort (· ≤ ·)).mp this
      refine ⟨s0, ?_, hs0mem, Or.inr ⟨?_, ?_⟩⟩
      · simp only [get_reference_date]
        rw [hM]
        dsimp only
        rw [hfind, hs]
        rfl
      · intro y hy
        exact hnone y (List.mem_reverse.mpr ((List.mem_insertionSort (· ≤ ·)).mpr hy))
      · intro y hy
        have hy' : y ∈ s0 :: ss := by
          rw [← hs]
          exact (List.mem_insertionSort (· ≤ ·)).mpr hy
        rcases List.mem_cons.mp hy' with h | h
        · subst h
          exact DT.le_refl y
        · have := hsorted
          rw [hs] at this
          exact List.rel_of_sorted_cons this y h

/-- When no reference date is in the same phase, the resolver anchors at
the greatest reference `≤ chosen` (or the least reference when none is
`≤ chosen`) and returns `chosen` shifted back by the residual, at
midnight. -/
theorem resolver_fallback_case (chosen r0 : DT) (rs : List DT) (p : Nat)
    (hM : (r0 :: rs).filter (fun r => same_phase chosen r p) = []) :
    ∃ a, get_reference_date chosen (r0 :: rs) p =
        some ⟨chosen.day - (chosen.day - a.day).emod (p : Int), 0⟩ ∧ a ∈ r0 :: rs ∧
      ((a ≤ chosen ∧ ∀ y ∈ r0 :: rs, y ≤ chosen → y ≤ a) ∨
        ((∀ y ∈ r0 :: rs, ¬ y ≤ chosen) ∧ ∀ y ∈ r0 :: rs, a ≤ y)) := by
  cases hbelow : (r0 :: rs).filter (fun r => decide (r ≤ chosen)) with
  | cons b bs =>
    obtain ⟨hmem, hb, hall⟩ := foldl_dtmax_spec bs b
    have hmax_below : bs.foldl dtmax b ∈ (r0 :: rs).filter (fun r => decide (r ≤ chosen)) := by
      rw [hbelow]
      rcases hmem with h | h
      · rw [h]
        exact List.mem_cons_self b bs
      · exact List.mem_cons_of_mem b h
    have hmax_filter := List.mem_filter.mp hmax_below
    refine ⟨bs.foldl dtmax b, ?_, hmax_filter.1, Or.inl ⟨by simpa using hmax_filter.2, ?_⟩⟩
    · simp only [get_reference_date]
      rw [hM]
      dsimp only
      rw [hbelow]
    · intro y hy hyc
      have hy_below : y ∈ (r0 :: rs).filter (fun r => decide (r ≤ chosen)) :=
        List.mem_filter.mpr ⟨hy, by simpa using hyc⟩
      rw [hbelow] at hy_below
      rcases List.mem_cons.mp hy_below with h | h
      · exact h ▸ hb
      · exact hall y h
  | nil =>
    obtain ⟨hmem, hr0, hall⟩ := foldl_dtmin_spec rs r0
    have hnotbelow : ∀ y ∈ r0 :: rs, ¬ y ≤ chosen := by
      intro y hy
      have := List.filter_eq_nil_iff.mp hbelow y hy
      simpa using this
    refine ⟨rs.foldl dtmin r0, ?_, ?_, Or.inr ⟨hnotbelow, ?_⟩⟩
    · simp only [get_reference_date]
      rw [hM]
      dsimp only
      rw [hbelow]
    · rcases hmem with h | h
      · rw [h]
        exact List.mem_cons_self r0 rs
      · exact List.mem_cons_of_mem r0 h
    · intro y hy
      rcases List.mem_cons.mp hy with h | h
      · exact h ▸ hr0
      · exact hall y h

/-! ### Claim theorems about the resolver -/

/-- C5: `same_phase(a, b, p)` is true iff the calendar-day difference of
`a` and `b` is divisible by `p`, and the test ignores the time-of-day
components of both arguments. -/
theorem same_phase_mod_spec (a b : DT) (p : Nat) (hp : 0 < p) :
    (same_phase a b p = true ↔ (p : Int) ∣ (a.day - b.day)) ∧
      ∀ t1 t2 : Nat, same_phase ⟨a.day, t1⟩ ⟨b.day, t2⟩ p = same_phase a b p := by
  constructor
  · unfold same_phase
    rw [beq_iff_eq]
    constructor
    · exact fun h => Int.dvd_of_emod_eq_zero h
    · exact fun h => Int.emod_eq_zero_of_dvd h
  · intro t1 t2
    rfl

/-- Witness for C5 at a concrete input. -/
theorem same_phase_mod_spec_witness :
    (same_phase ⟨19742, 3600⟩ ⟨19730, 59⟩ 12 = true ↔ (12 : Int) ∣ (19742 - 19730)) ∧
      ∀ t1 t2 : Nat, same_phase ⟨19742, t1⟩ ⟨19730, t2⟩ 12 = same_phase ⟨19742, 3600⟩ ⟨19730, 59⟩ 12 :=
  same_phase_mod_spec ⟨19742, 3600⟩ ⟨19730, 59⟩ 12 (by decide)

/-- C6: the resolver returns `none` on an empty reference list, and on any
non-empty list it returns a value (the embedding is a total pure function,
so the same inputs always give the same result and no exception escapes). -/
theorem resolver_totality (chosen : DT) (refs : List DT) (p : Nat) (hp : 0 < p) :
    (refs = [] → get_reference_date chosen refs p = none) ∧
      (refs ≠ [] → ∃ x, get_reference_date chosen refs p = some x) := by
  constructor
  · intro h
    subst h
    rfl
  · intro h
    cases refs with
    | nil => exact absurd rfl h
    | cons r0 rs =>
      cases hM : (r0 :: rs).filter (fun r => same_phase chosen r p) with
      | cons m ms =>
        obtain ⟨x, hx, -, -⟩ := resolver_phase_case chosen r0 rs p m ms hM
        exact ⟨x, hx⟩
      | nil =>
        obtain ⟨a, ha, -, -⟩ := resolver_fallback_case chosen r0 rs p hM
        exact ⟨_, ha⟩

/-- Witness for C6 at a concrete input. -/
theorem resolver_totality_witness :
    (([⟨19723, 0⟩] : List DT) = [] → get_reference_date ⟨19742, 0⟩ [⟨19723, 0⟩] 12 = none) ∧
      (([⟨19723, 0⟩] : List DT) ≠ [] →
        ∃ x, get_reference_date ⟨19742, 0⟩ [⟨19723, 0⟩] 12 = some x) :=
  resolver_totality ⟨19742, 0⟩ [⟨19723, 0⟩] 12 (by decide)

/-- C1 (amended): the resolver returns `none` exactly when the reference
list is empty, and whenever some reference is in the same phase as the
chosen date the returned value is a member of the reference list.  (The
claim's unconditional membership fails in the no-same-phase fallback; see
the counterexample.) -/
theorem resolver_none_iff_and_membership (chosen : DT) (refs : List DT) (p : Nat)
    (hp : 0 < p) :
    (get_reference_date chosen refs p = none ↔ refs = []) ∧
      ((∃ r ∈ refs, same_phase chosen r p = true) →
        ∃ x, get_reference_date chosen refs p = some x ∧ x ∈ refs) := by
  constructor
  · constructor
    · intro h
      cases refs with
      | nil => rfl
      | cons r0 rs =>
        exfalso
        cases hM : (r0 :: rs).filter (fun r => same_phase chosen r p) with
        | cons m ms =>
          obtain ⟨x, hx, -, -⟩ := resolver_phase_case chosen r0 rs p m ms hM
          rw [hx] at h
          simp at h
        | nil =>
          obtain ⟨a, ha, -, -⟩ := resolver_fallback_case chosen r0 rs p hM
          rw [ha] at h
          simp at h
    · intro h
      subst h
      rfl
  · rintro ⟨r, hr, hph⟩
    cases refs with
    | nil => simp at hr
    | cons r0 rs =>
      have hmemf : r ∈ (r0 :: rs).filter (fun r => same_phase chosen r p) :=
        List.mem_filter.mpr ⟨hr, hph⟩
      cases hM : (r0 :: rs).filter (fun r => same_phase chosen r p) with
      | nil =>
        rw [hM] at hmemf
        simp at hmemf
      | cons m ms =>
        obtain ⟨x, hx, hxmem, -⟩ := resolver_phase_case chosen r0 rs p m ms hM
        refine ⟨x, hx, ?_⟩
        have hxf : x ∈ (r0 :: rs).filter (fun r => same_phase chosen r p) := hM ▸ hxmem
        exact (List.mem_filter.mp hxf).1

/-- Witness for C1 (amended) at a concrete input. -/
theorem resolver_none_iff_and_membership_witness :
    (get_reference_date ⟨19747, 0⟩ [⟨19723, 0⟩] 12 = none ↔ ([⟨19723, 0⟩] : List DT) = []) ∧
      ((∃ r ∈ ([⟨19723, 0⟩] : List DT), same_phase ⟨19747, 0⟩ r 12 = true) →
        ∃ x, get_reference_date ⟨19747, 0⟩ [⟨19723, 0⟩] 12 = some x ∧
          x ∈ ([⟨19723, 0⟩] : List DT)) :=
  resolver_none_iff_and_membership ⟨19747, 0⟩ [⟨19723, 0⟩] 12 (by decide)

/-- C1 counterexample: with `R = {2024-01-01}`, period `12` and chosen date
`2024-01-20`, no reference is in the same phase, and the fallback returns
`2024-01-13`, which is not a member of `R`: the returned value of
`get_reference_date` is not always a member of the reference list. -/
theorem resolver_membership_counterexample :
    get_reference_date ⟨daysFromCivil 2024 1 20, 0⟩ [⟨daysFromCivil 2024 1 1, 0⟩] 12 =
        some ⟨daysFromCivil 2024 1 13, 0⟩ ∧
      (⟨daysFromCivil 2024 1 13, 0⟩ : DT) ∉ [(⟨daysFromCivil 2024 1 1, 0⟩ : DT)] := by
  decide

/-- C4: when some reference is in the same phase as the chosen date, the
resolver returns the latest same-phase reference `≤ chosen`, and when every
same-phase reference is `> chosen` it returns the earliest same-phase
reference; in particular it never returns a same-phase date earlier than
the best same-phase date `≤ chosen`. -/
theorem resolver_same_phase_selection (chosen : DT) (refs : List DT) (p : Nat) (hp : 0 < p)
    (m : DT) (hm : m ∈ refs) (hph : same_phase chosen m p = true) :
    (m ≤ chosen → (∀ r ∈ refs, same_phase chosen r p = true → r ≤ chosen → r ≤ m) →
        get_reference_date chosen refs p = some m) ∧
      ((∀ r ∈ refs, same_phase chosen r p = true → ¬ r ≤ chosen) →
        (∀ r ∈ refs, same_phase chosen r p = true → m ≤ r) →
          get_reference_date chosen refs p = some m) := by
  cases refs with
  | nil => simp at hm
  | cons r0 rs =>
    have hmf : m ∈ (r0 :: rs).filter (fun r => same_phase chosen r p) :=
      List.mem_filter.mpr ⟨hm, hph⟩
    cases hM : (r0 :: rs).filter (fun r => same_phase chosen r p) with
    | nil =>
      rw [hM] at hmf
      simp at hmf
    | cons m0 ms0 =>
      obtain ⟨x, hx, hxmem, hxchar⟩ := resolver_phase_case chosen r0 rs p m0 ms0 hM
      have hxf : x ∈ (r0 :: rs).filter (fun r => same_phase chosen r p) := hM ▸ hxmem
      have hxrefs := (List.mem_filter.mp hxf).1
      have hxph : same_phase chosen x p = true := (List.mem_filter.mp hxf).2
      rw [hM] at hmf
      constructor
      · intro hmc hbest
        rcases hxchar with ⟨hxc, hxall⟩ | ⟨hnall, -⟩
        · have h1 : m ≤ x := hxall m hmf hmc
          have h2 : x ≤ m := hbest x hxrefs hxph hxc
          rw [hx, DT.le_antisymm h2 h1]
        · exact absurd hmc (hnall m hmf)
      · intro hnone hleast
        rcases hxchar with ⟨hxc, -⟩ | ⟨-, hxleast⟩
        · exact absurd hxc (hnone x hxrefs hxph)
        · have h2 : x ≤ m := hxleast m hmf
          have h1 : m ≤ x := hleast x hxrefs hxph
          rw [hx, DT.le_antisymm h2 h1]

/-- Witness for C4 at a concrete input: references 2024-01-01 and
2024-01-13 (day numbers 19723 and 19735), chosen day 19747, period 12 —
both references are in phase and the latest one `≤ chosen` is 19735. -/
theorem resolver_same_phase_selection_witness :
    ((⟨19735, 0⟩ : DT) ≤ ⟨19747, 0⟩ →
        (∀ r ∈ ([⟨19723, 0⟩, ⟨19735, 0⟩] : List DT), same_phase ⟨19747, 0⟩ r 12 = true →
          r ≤ ⟨19747, 0⟩ → r ≤ ⟨19735, 0⟩) →
        get_reference_date ⟨19747, 0⟩ [⟨19723, 0⟩, ⟨19735, 0⟩] 12 = some ⟨19735, 0⟩) ∧
      ((∀ r ∈ ([⟨19723, 0⟩, ⟨19735, 0⟩] : List DT), same_phase ⟨19747, 0⟩ r 12 = true →
          ¬ r ≤ ⟨19747, 0⟩) →
        (∀ r ∈ ([⟨19723, 0⟩, ⟨19735, 0⟩] : List DT), same_phase ⟨19747, 0⟩ r 12 = true →
          (⟨19735, 0⟩ : DT) ≤ r) →
          get_reference_date ⟨19747, 0⟩ [⟨19723, 0⟩, ⟨19735, 0⟩] 12 = some ⟨19735, 0⟩) :=
  resolver_same_phase_selection ⟨19747, 0⟩ [⟨19723, 0⟩, ⟨19735, 0⟩] 12 (by decide)
    ⟨19735, 0⟩ (by decide) (by decide)

/-- C3: when no reference is in the same phase as the chosen date, the
resolver anchors at the latest reference `≤ chosen` (or the minimum of the
references when none is `≤ chosen`) and returns the chosen date shifted
back by `(chosen − anchor) mod p` days, at midnight UTC. -/
theorem resolver_fallback_formula (chosen : DT) (refs : List DT) (p : Nat) (hp : 0 < p)
    (a : DT) (hnophase : ∀ r ∈ refs, same_phase chosen r p = false)
    (hanchor : (a ∈ refs ∧ a ≤ chosen ∧ ∀ r ∈ refs, r ≤ chosen → r ≤ a) ∨
      ((∀ r ∈ refs, ¬ r ≤ chosen) ∧ a ∈ refs ∧ ∀ r ∈ refs, a ≤ r)) :
    get_reference_date chosen refs p =
      some ⟨chosen.day - (chosen.day - a.day).emod (p : Int), 0⟩ := by
  cases refs with
  | nil =>
    rcases hanchor with ⟨h, -, -⟩ | ⟨-, h, -⟩ <;> simp at h
  | cons r0 rs =>
    have hM : (r0 :: rs).filter (fun r => same_phase chosen r p) = [] := by
      rw [List.filter_eq_nil_iff]
      intro r hr
      simp [hnophase r hr]
    obtain ⟨b, hb, hbmem, hbchar⟩ := resolver_fallback_case chosen r0 rs p hM
    have hba : b = a := by
      rcases hbchar with ⟨hbc, hball⟩ | ⟨hbn, hbleast⟩
      · rcases hanchor with ⟨hamem, hac, haall⟩ | ⟨han, hamem, -⟩
        · exact DT.le_antisymm (haall b hbmem hbc) (hball a hamem hac)
        · exact absurd hbc (han b hbmem)
      · rcases hanchor with ⟨hamem, hac, -⟩ | ⟨-, hamem, haleast⟩
        · exact absurd hac (hbn a hamem)
        · exact DT.le_antisymm (hbleast a hamem) (haleast b hbmem)
    rw [hb, hba]

/-- Witness for C3: the spec's worked example — period 12,
`R = {2024-01-01, 2024-01-13}`, chosen 2024-01-20; no reference is in
phase, the anchor is 2024-01-13, the residual is 7, and the result is
2024-01-13. -/
theorem resolver_fallback_formula_witness :
    get_reference_date ⟨daysFromCivil 2024 1 20, 0⟩
        [⟨daysFromCivil 2024 1 1, 0⟩, ⟨daysFromCivil 2024 1 13, 0⟩] 12 =
      some ⟨daysFromCivil 2024 1 13, 0⟩ := by
  have h := resolver_fallback_formula ⟨daysFromCivil 2024 1 20, 0⟩
    [⟨daysFromCivil 2024 1 1, 0⟩, ⟨daysFromCivil 2024 1 13, 0⟩] 12 (by decide)
    ⟨daysFromCivil 2024 1 13, 0⟩ (by decide) (Or.inl (by decide))
  rw [h]
  decide

/-! ### Date extraction: only hits that parse appear -/

/-- The dates one property value contributes: the parseable `DATE_RE` hits
of its stringification (nothing for `None`). -/
def hitDates (v : PValue) : List DT :=
  match pvalToString v with
  | none => []
  | some s => (findall s).filterMap parse_date_ymd

theorem inner_foldl_eq (l : List String) (ds : List DT) :
    l.foldl
        (fun ds hit =>
          match parse_date_ymd hit with
          | some dt => ds ++ [dt]
          | none => ds)
        ds =
      ds ++ l.filterMap parse_date_ymd := by
  induction l generalizing ds with
  | nil => simp
  | cons hd t ih =>
    rw [List.foldl_cons]
    cases hp : parse_date_ymd hd with
    | some dt => simp [hp, ih, List.filterMap_cons]
    | none => simp [hp, ih, List.filterMap_cons]

theorem extract_foldl_acc (props : List PValue) (ds : List DT) :
    props.foldl
        (fun dates v =>
          match pvalToString v with
          | none => dates
          | some s =>
            (findall s).foldl
              (fun ds hit =>
                match parse_date_ymd hit with
                | some dt => ds ++ [dt]
                | none => ds)
              dates)
        ds =
      ds ++
        props.foldl
          (fun dates v =>
            match pvalToString v with
            | none => dates
            | some s =>
              (findall s).foldl
                (fun ds hit =>
                  match parse_date_ymd hit with
                  | some dt => ds ++ [dt]
                  | none => ds)
                dates)
          [] := by
  induction props generalizing ds with
  | nil => simp
  | cons v vs ih =>
    rw [List.foldl_cons, ih]
    conv_rhs => rw [List.foldl_cons, ih]
    rw [← List.append_assoc]
    congr 1
    beta_reduce
    cases hv : pvalToString v with
    | none => simp
    | some s =>
      dsimp only
      rw [inner_foldl_eq, inner_foldl_eq]
      simp

theorem extract_cons (v : PValue) (vs : List PValue) :
    extract_dates_from_properties (v :: vs) =
      hitDates v ++ extract_dates_from_properties vs := by
  unfold extract_dates_from_properties
  rw [List.foldl_cons, extract_foldl_acc]
  congr 1
  beta_reduce
  unfold hitDates
  cases hv : pvalToString v with
  | none => rfl
  | some s =>
    dsimp only
    rw [inner_foldl_eq]
    simp

theorem mem_extract_iff (props : List PValue) (dt : DT) :
    dt ∈ extract_dates_from_properties props ↔
      ∃ s, s ∈ props.filterMap pvalToString ∧
        ∃ hit, hit ∈ findall s ∧ parse_date_ymd hit = some dt := by
  induction props with
  | nil =>
    simp [extract_dates_from_properties]
  | cons v vs ih =>
    rw [extract_cons, List.mem_append, ih]
    constructor
    · rintro (hv | ⟨s, hs, hhit⟩)
      · unfold hitDates at hv
        cases hv2 : pvalToString v with
        | none =>
          rw [hv2] at hv
          simp at hv
        | some s =>
          rw [hv2] at hv
          obtain ⟨hit, hmem, hp⟩ := List.mem_filterMap.mp hv
          exact ⟨s, List.mem_filterMap.mpr ⟨v, List.mem_cons_self v vs, hv2⟩, hit, hmem, hp⟩
      · obtain ⟨w, hw, hws⟩ := List.mem_filterMap.mp hs
        exact ⟨s, List.mem_filterMap.mpr ⟨w, List.mem_cons_of_mem v hw, hws⟩, hhit⟩
    · rintro ⟨s, hs, hit, hmem, hp⟩
      obtain ⟨w, hw, hws⟩ := List.mem_filterMap.mp hs
      rcases List.mem_cons.mp hw with h | h
      · subst h
        left
        unfold hitDates
        rw [hws]
        exact List.mem_filterMap.mpr ⟨hit, hmem, hp⟩
      · right
        exact ⟨s, List.mem_filterMap.mpr ⟨w, h, hws⟩, hit, hmem, hp⟩

/-- C8: a regex hit whose first ten characters do not parse as a valid
calendar date (such as `2024-13-45`) is silently dropped; extraction is a
total function (never raises), and a date appears in the result exactly
when it is the successful parse of some `DATE_RE` hit of some stringified
property value. -/
theorem extract_dates_drops_invalid_hits :
    parse_date_ymd "2024-13-45" = none ∧
      extract_dates_from_properties [.vstr "obs 2024-13-45 end"] = [] ∧
      ∀ props dt, dt ∈ extract_dates_from_properties props ↔
        ∃ s, s ∈ props.filterMap pvalToString ∧
          ∃ hit, hit ∈ findall s ∧ parse_date_ymd hit = some dt := by
  refine ⟨by decide, by decide, ?_⟩
  exact mem_extract_iff

/-! ### Reference-date lists are strictly ascending and duplicate-free -/

theorem sortedSet_sorted_lt (l : List DT) :
    (sortedSet l).Sorted (· < ·) ∧ (sortedSet l).Nodup := by
  have hsorted : (sortedSet l).Sorted (· ≤ ·) :=
    List.sorted_insertionSort (· ≤ ·) l.dedup
  have hnodup : (sortedSet l).Nodup :=
    (List.perm_insertionSort (· ≤ ·) l.dedup).symm.nodup (List.nodup_dedup l)
  refine ⟨?_, hnodup⟩
  have hand := hsorted.and hnodup
  exact hand.imp fun hab => DT.lt_of_le_of_ne hab.1 hab.2

/-- C7: for every parsed plan, the derived reference-date list
(`sorted(set(...))` of all dates extracted from all feature properties) is
strictly ascending and contains no duplicates. -/
theorem reference_dates_sorted_nodup (feats : List (List PValue)) :
    (load_reference_dates feats).Sorted (· < ·) ∧ (load_reference_dates feats).Nodup :=
  sortedSet_sorted_lt _

/-! ### The scanner finds exactly the word-boundary-delimited date shapes -/

/-- The character standing just before a position given the part `l` of the
string already consumed and the character `prev` before all of it. -/
def lastOr (l : List Char) (prev : Option Char) : Option Char :=
  l.getLast?.or prev

theorem wordB_of_isDigit {c : Char} (h : c.isDigit = true) : wordB c = true := by
  simp [wordB, Char.isAlphanum, h]

theorem or_of_ne_nil (l : List Char) (o : Option Char) (h : l ≠ []) :
    l.getLast?.or o = l.getLast? := by
  rw [List.getLast?_eq_getLast_of_ne_nil h]
  rfl

theorem lastOr_of_ne_nil (l : List Char) (prev : Option Char) (h : l ≠ []) :
    lastOr l prev = l.getLast? :=
  or_of_ne_nil l prev h

theorem getLast?_cons_or (c : Char) (l : List Char) :
    (c :: l).getLast? = l.getLast?.or (some c) := by
  cases l with
  | nil => rfl
  | cons x xs =>
    rw [List.getLast?_cons_cons, or_of_ne_nil (x :: xs) (some c) (by simp)]

theorem lastOr_cons (c : Char) (l : List Char) (prev : Option Char) :
    lastOr (c :: l) prev = lastOr l (some c) := by
  rw [lastOr_of_ne_nil (c :: l) prev (by simp), getLast?_cons_or]
  rfl

theorem shape10_iff (t : List Char) :
    shape10 t = true ↔ t.length = 10 ∧ t.getD 0 ' ' = '2' ∧ t.getD 1 ' ' = '0' ∧
      (t.getD 2 ' ').isDigit = true ∧ (t.getD 3 ' ').isDigit = true ∧ t.getD 4 ' ' = '-' ∧
      (t.getD 5 ' ').isDigit = true ∧ (t.getD 6 ' ').isDigit = true ∧ t.getD 7 ' ' = '-' ∧
      (t.getD 8 ' ').isDigit = true ∧ (t.getD 9 ' ').isDigit = true := by
  unfold shape10
  simp [Bool.and_eq_true, beq_iff_eq, and_assoc]

theorem shape10_length {t : List Char} (h : shape10 t = true) : t.length = 10 :=
  ((shape10_iff t).mp h).1

theorem headMatch_iff (prev : Option Char) (cs : List Char) :
    headMatch prev cs = true ↔ shape10 (cs.take 10) = true ∧ boundOk prev = true ∧
      boundOk (cs.drop 10).head? = true := by
  unfold headMatch
  simp [Bool.and_eq_true, and_assoc]

theorem scanFuel_head (fuel : Nat) (prev : Option Char) (c : Char) (rest : List Char)
    (h : headMatch prev (c :: rest) = true) :
    scanFuel (fuel + 1) prev (c :: rest) =
      (c :: rest).take 10 ::
        scanFuel fuel ((c :: rest).take 10).getLast? ((c :: rest).drop 10) := by
  simp [scanFuel, h]

theorem scanFuel_step (fuel : Nat) (prev : Option Char) (c : Char) (rest : List Char)
    (h : headMatch prev (c :: rest) = false) :
    scanFuel (fuel + 1) prev (c :: rest) = scanFuel fuel (some c) rest := by
  simp [scanFuel, h]

theorem getD_take_lt (l : List Char) (n i : Nat) (h : i < n) :
    (l.take n).getD i ' ' = l.getD i ' ' := by
  rw [List.getD_eq_getElem?_getD, List.getD_eq_getElem?_getD, List.getElem?_take, if_pos h]

theorem getLast?_cons_getD (c0 : Char) (l2 : List Char) :
    (c0 :: l2).getLast? = some ((c0 :: l2).getD l2.length ' ') := by
  induction l2 generalizing c0 with
  | nil => rfl
  | cons x xs ih =>
    rw [List.getLast?_cons_cons, ih x]
    rfl

/-- Every hit emitted by the scanner has the date shape and occurs in the
scanned characters delimited by word boundaries on both sides. -/
theorem scanFuel_sound (fuel : Nat) (prev : Option Char) (cs hit : List Char)
    (hmem : hit ∈ scanFuel fuel prev cs) :
    shape10 hit = true ∧ ∃ l r, cs = l ++ (hit ++ r) ∧ boundOk (lastOr l prev) = true ∧
      boundOk r.head? = true := by
  induction fuel generalizing prev cs with
  | zero => simp [scanFuel] at hmem
  | succ fuel ih =>
    cases cs with
    | nil => simp [scanFuel] at hmem
    | cons c rest =>
      by_cases hm : headMatch prev (c :: rest) = true
      · rw [scanFuel_head fuel prev c rest hm] at hmem
        obtain ⟨hsh, hbp, hbd⟩ := (headMatch_iff prev (c :: rest)).mp hm
        rcases List.mem_cons.mp hmem with heq | hrec
        · subst heq
          refine ⟨hsh, [], (c :: rest).drop 10, ?_, hbp, hbd⟩
          rw [List.nil_append, List.take_append_drop]
        · obtain ⟨hshape, l', r', hdec, hb1, hb2⟩ := ih _ _ hrec
          refine ⟨hshape, (c :: rest).take 10 ++ l', r', ?_, ?_, hb2⟩
          · conv_lhs => rw [← List.take_append_drop 10 (c :: rest)]
            rw [hdec, List.append_assoc]
          · have htne : (c :: rest).take 10 ≠ [] := by
              intro h0
              have := shape10_length hsh
              rw [h0] at this
              simp at this
            cases hl' : l' with
            | nil =>
              rw [hl'] at hb1
              rw [List.append_nil, lastOr_of_ne_nil _ _ htne]
              exact hb1
            | cons x xs =>
              rw [hl'] at hb1
              rw [lastOr_of_ne_nil _ _ (by simp : (c :: rest).take 10 ++ x :: xs ≠ []),
                List.getLast?_append, or_of_ne_nil _ _ (by simp)]
              rw [lastOr_of_ne_nil _ _ (by simp)] at hb1
              exact hb1
      · rw [scanFuel_step fuel prev c rest (by simpa using hm)] at hmem
        obtain ⟨hshape, l', r', hdec, hb1, hb2⟩ := ih _ _ hmem
        refine ⟨hshape, c :: l', r', ?_, ?_, hb2⟩
        · rw [List.cons_append, ← hdec]
        · rw [lastOr_cons]
          exact hb1

/-- Conversely, every occurrence of a date-shaped character block delimited
by word boundaries is found by the scanner: a successful fixed-length match
cannot overlap such an occurrence (it would need a dash where the
occurrence has a digit, or its trailing boundary would fail on a digit),
so the scan never jumps past one. -/
theorem scanFuel_complete (t r : List Char) (ht : shape10 t = true) :
    ∀ (fuel : Nat) (prev : Option Char) (l : List Char),
      (l ++ (t ++ r)).length ≤ fuel →
      boundOk (lastOr l prev) = true → boundOk r.head? = true →
      t ∈ scanFuel fuel prev (l ++ (t ++ r)) := by
  intro fuel
  induction fuel with
  | zero =>
    intro prev l hlen _ _
    exfalso
    have h10 := shape10_length ht
    simp only [List.length_append] at hlen
    omega
  | succ fuel ih =>
    intro prev l hlen hb1 hb2
    have h10 := shape10_length ht
    rcases l with _ | ⟨c0, l2⟩
    · rw [List.nil_append] at hlen ⊢
      have hmatch : headMatch prev (t ++ r) = true := by
        rw [headMatch_iff]
        refine ⟨?_, hb1, ?_⟩
        · rw [List.take_left' h10]
          exact ht
        · rw [List.drop_left' h10]
          exact hb2
      cases htt : t with
      | nil =>
        rw [htt] at h10
        simp at h10
      | cons a tt =>
        subst htt
        rw [List.cons_append]
        rw [List.cons_append] at hmatch
        rw [scanFuel_head fuel prev a (tt ++ r) hmatch]
        have htake : (a :: (tt ++ r)).take 10 = a :: tt := by
          rw [← List.cons_append, List.take_left' h10]
        rw [htake]
        exact List.mem_cons_self _ _
    · rw [List.cons_append] at hlen ⊢
      by_cases hm : headMatch prev (c0 :: (l2 ++ (t ++ r))) = true
      · obtain ⟨hsh, hbp, hbd⟩ := (headMatch_iff _ _).mp hm
        rw [← List.cons_append] at hsh hbd
        have hb1' : wordB ((c0 :: l2 ++ (t ++ r)).getD l2.length ' ') = false := by
          have h1 : boundOk ((c0 :: l2).getLast?) = true := by
            rw [← lastOr_of_ne_nil (c0 :: l2) prev (by simp)]
            exact hb1
          rw [getLast?_cons_getD] at h1
          simp only [boundOk, Bool.not_eq_true'] at h1
          rw [List.getD_append _ _ _ _ (by simp : l2.length < (c0 :: l2).length)]
          exact h1
        have hk : 11 ≤ l2.length + 1 := by
          by_contra hk'
          obtain ⟨-, hs0, hs1, hs2, hs3, hs4, hs5, hs6, hs7, hs8, hs9⟩ :=
            (shape10_iff _).mp hsh
          have hM0 : (c0 :: l2 ++ (t ++ r)).getD 0 ' ' = '2' := by
            rw [← getD_take_lt (c0 :: l2 ++ (t ++ r)) 10 0 (by omega)]
            exact hs0
          have hM1 : (c0 :: l2 ++ (t ++ r)).getD 1 ' ' = '0' := by
            rw [← getD_take_lt (c0 :: l2 ++ (t ++ r)) 10 1 (by omega)]
            exact hs1
          have hM2 : ((c0 :: l2 ++ (t ++ r)).getD 2 ' ').isDigit = true := by
            rw [← getD_take_lt (c0 :: l2 ++ (t ++ r)) 10 2 (by omega)]
            exact hs2
          have hM3 : ((c0 :: l2 ++ (t ++ r)).getD 3 ' ').isDigit = true := by
            rw [← getD_take_lt (c0 :: l2 ++ (t ++ r)) 10 3 (by omega)]
            exact hs3
          have hM5 : ((c0 :: l2 ++ (t ++ r)).getD 5 ' ').isDigit = true := by
            rw [← getD_take_lt (c0 :: l2 ++ (t ++ r)) 10 5 (by omega)]
            exact hs5
          have hM6 : ((c0 :: l2 ++ (t ++ r)).getD 6 ' ').isDigit = true := by
            rw [← getD_take_lt (c0 :: l2 ++ (t ++ r)) 10 6 (by omega)]
            exact hs6
          have hM7 : (c0 :: l2 ++ (t ++ r)).getD 7 ' ' = '-' := by
            rw [← getD_take_lt (c0 :: l2 ++ (t ++ r)) 10 7 (by omega)]
            exact hs7
          have hM8 : ((c0 :: l2 ++ (t ++ r)).getD 8 ' ').isDigit = true := by
            rw [← getD_take_lt (c0 :: l2 ++ (t ++ r)) 10 8 (by omega)]
            exact hs8
          have hM9 : ((c0 :: l2 ++ (t ++ r)).getD 9 ' ').isDigit = true := by
            rw [← getD_take_lt (c0 :: l2 ++ (t ++ r)) 10 9 (by omega)]
            exact hs9
          obtain ⟨-, ht0, ht1, ht2, ht3, ht4, ht5, ht6, ht7, ht8, ht9⟩ :=
            (shape10_iff t).mp ht
          have hbridge : ∀ j, j < 10 →
              (c0 :: l2 ++ (t ++ r)).getD (l2.length + 1 + j) ' ' = t.getD j ' ' := by
            intro j hj
            rw [List.getD_append_right _ _ _ _ (by simp only [List.length_cons]; omega)]
            have hidx : l2.length + 1 + j - (c0 :: l2).length = j := by
              simp
            rw [hidx]
            rw [List.getD_append _ _ _ _ (by rw [h10]; exact hj)]
          have hcases : l2.length = 0 ∨ l2.length = 1 ∨ l2.length = 2 ∨ l2.length = 3 ∨
              l2.length = 4 ∨ l2.length = 5 ∨ l2.length = 6 ∨ l2.length = 7 ∨
              l2.length = 8 ∨ l2.length = 9 := by omega
          rcases hcases with h | h | h | h | h | h | h | h | h | h
          · rw [h, hM0] at hb1'
            exact absurd hb1' (by decide)
          · rw [h, hM1] at hb1'
            exact absurd hb1' (by decide)
          · rw [h, wordB_of_isDigit hM2] at hb1'
            exact absurd hb1' (by decide)
          · rw [h, wordB_of_isDigit hM3] at hb1'
            exact absurd hb1' (by decide)
          · have hb7 := hbridge 2 (by omega)
            rw [h] at hb7
            have hidx7 : (4 : Nat) + 1 + 2 = 7 := by norm_num
            rw [hidx7] at hb7
            rw [hM7] at hb7
            rw [← hb7] at ht2
            exact absurd ht2 (by decide)
          · rw [h, wordB_of_isDigit hM5] at hb1'
            exact absurd hb1' (by decide)
          · rw [h, wordB_of_isDigit hM6] at hb1'
            exact absurd hb1' (by decide)
          · have hlt10 : 10 < (c0 :: l2 ++ (t ++ r)).length := by
              simp [List.length_append]
              omega
            rw [List.head?_drop, List.getElem?_eq_getElem hlt10] at hbd
            simp only [boundOk, Bool.not_eq_true'] at hbd
            have hgd : (c0 :: l2 ++ (t ++ r)).getD 10 ' ' = (c0 :: l2 ++ (t ++ r))[10] := by
              rw [List.getD_eq_getElem?_getD, List.getElem?_eq_getElem hlt10]
              rfl
            have hb10 := hbridge 2 (by omega)
            rw [h] at hb10
            have hidx10 : (7 : Nat) + 1 + 2 = 10 := by norm_num
            rw [hidx10] at hb10
            rw [hgd] at hb10
            rw [hb10, wordB_of_isDigit ht2] at hbd
            exact absurd hbd (by decide)
          · rw [h, wordB_of_isDigit hM8] at hb1'
            exact absurd hb1' (by decide)
          · rw [h, wordB_of_isDigit hM9] at hb1'
            exact absurd hb1' (by decide)
        rw [scanFuel_head fuel prev c0 (l2 ++ (t ++ r)) hm]
        apply List.mem_cons_of_mem
        have hdrop : (c0 :: (l2 ++ (t ++ r))).drop 10 = ((c0 :: l2).drop 10) ++ (t ++ r) := by
          rw [← List.cons_append, List.drop_append_of_le_length (by simp; omega)]
        rw [hdrop]
        apply ih
        · simp only [List.length_append, List.length_drop, List.length_cons] at hlen ⊢
          omega
        · have hne10 : (c0 :: l2).drop 10 ≠ [] := by
            intro h0
            have hlen0 := congrArg List.length h0
            simp [List.length_drop] at hlen0
            omega
          rw [lastOr_of_ne_nil _ _ hne10]
          have hsame : ((c0 :: l2).drop 10).getLast? = (c0 :: l2).getLast? := by
            conv_rhs => rw [← List.take_append_drop 10 (c0 :: l2)]
            rw [List.getLast?_append, or_of_ne_nil _ _ hne10]
          rw [hsame]
          rw [lastOr_of_ne_nil _ _ (by simp)] at hb1
          exact hb1
        · exact hb2
      · rw [scanFuel_step fuel prev c0 (l2 ++ (t ++ r)) (by simpa using hm)]
        apply ih
        · simp only [List.length_append, List.length_cons] at hlen ⊢
          omega
        · rw [← lastOr_cons c0 l2 prev]
          exact hb1
        · exact hb2

/-- The target occurs in `s` as a substring with a word boundary on each
side: nothing before it, or a non-word character; nothing after it, or a
non-word character. -/
def occursBounded (s tgt : String) : Prop :=
  ∃ l r, s.data = l ++ (tgt.data ++ r) ∧ boundOk l.getLast? = true ∧ boundOk r.head? = true

theorem findall_sound (s hit : String) (h : hit ∈ findall s) :
    shape10 hit.data = true ∧ occursBounded s hit := by
  unfold findall at h
  obtain ⟨cs, hcs, hmk⟩ := List.mem_map.mp h
  obtain ⟨hsh, l, r, hdec, hb1, hb2⟩ := scanFuel_sound _ _ _ _ hcs
  have hdata : hit.data = cs := by rw [← hmk]
  have hb1' : boundOk l.getLast? = true := by
    have hor : lastOr l none = l.getLast? := Option.or_none
    rw [← hor]
    exact hb1
  constructor
  · rw [hdata]
    exact hsh
  · refine ⟨l, r, ?_, hb1', hb2⟩
    rw [hdata]
    exact hdec

theorem findall_complete (s tgt : String) (hsh : shape10 tgt.data = true)
    (hocc : occursBounded s tgt) : tgt ∈ findall s := by
  obtain ⟨l, r, hdec, hb1, hb2⟩ := hocc
  have hb1' : boundOk (lastOr l none) = true := by
    have hor : lastOr l none = l.getLast? := Option.or_none
    rw [hor]
    exact hb1
  have hmem := scanFuel_complete tgt.data r hsh s.data.length none l
    (by rw [← hdec]) hb1' hb2
  rw [← hdec] at hmem
  exact List.mem_map.mpr ⟨tgt.data, hmem, rfl⟩

theorem feature_match_elem_iff (props : List PValue) (target : String) :
    feature_has_target_date props target = true ↔
      ∃ s, s ∈ props.filterMap pvalToString ∧ target ∈ findall s := by
  unfold feature_has_target_date
  rw [List.any_eq_true]
  constructor
  · rintro ⟨v, hv, hmatch⟩
    cases hpv : pvalToString v with
    | none =>
      rw [hpv] at hmatch
      simp at hmatch
    | some s =>
      rw [hpv] at hmatch
      exact ⟨s, List.mem_filterMap.mpr ⟨v, hv, hpv⟩, List.elem_iff.mp hmatch⟩
  · rintro ⟨s, hs, hmem⟩
    obtain ⟨v, hv, hpv⟩ := List.mem_filterMap.mp hs
    refine ⟨v, hv, ?_⟩
    rw [hpv]
    exact List.elem_iff.mpr hmem

theorem feature_match_occurs_iff (props : List PValue) (target : String)
    (hshape : shape10 target.data = true) :
    feature_has_target_date props target = true ↔
      ∃ s, s ∈ props.filterMap pvalToString ∧ occursBounded s target := by
  rw [feature_match_elem_iff]
  constructor
  · rintro ⟨s, hs, hmem⟩
    exact ⟨s, hs, (findall_sound s target hmem).2⟩
  · rintro ⟨s, hs, hocc⟩
    exact ⟨s, hs, findall_complete s target hshape hocc⟩

/-- C2 (amended): for a target of the date shape `20dd-dd-dd`,
`feature_has_target_date` is true exactly when some property value, coerced
to string, contains the target as a substring delimited by word boundaries
(not immediately preceded or followed by a letter, digit or underscore); in
particular the property value `valid_from=2024-05-02T00:00Z` matches
neither `2024-05-02` (the `T` after the date is a word character) nor
`2024-05-03`. -/
theorem feature_target_date_word_boundary :
    (∀ props target, shape10 target.data = true →
      (feature_has_target_date props target = true ↔
        ∃ s, s ∈ props.filterMap pvalToString ∧ occursBounded s target)) ∧
      feature_has_target_date [.vstr "valid_from=2024-05-02T00:00Z"] "2024-05-02" = false ∧
      feature_has_target_date [.vstr "valid_from=2024-05-02T00:00Z"] "2024-05-03" = false :=
  ⟨fun props target h => feature_match_occurs_iff props target h, by decide, by decide⟩

/-- Witness for C2 (amended) at a concrete input with a genuine
boundary-delimited occurrence. -/
theorem feature_target_date_word_boundary_witness :
    feature_has_target_date [.vstr "d 2024-05-02;"] "2024-05-02" = true ↔
      ∃ s, s ∈ ([PValue.vstr "d 2024-05-02;"].filterMap pvalToString) ∧
        occursBounded s "2024-05-02" :=
  feature_target_date_word_boundary.1 [.vstr "d 2024-05-02;"] "2024-05-02" (by decide)

/-- C2 counterexample: the claim's own example fails on the code — the
value `valid_from=2024-05-02T00:00Z` contains `2024-05-02` as a plain
substring, yet `feature_has_target_date` does not match it, because the
regex requires a word boundary and `T` is a word character. -/
theorem feature_target_date_substring_counterexample :
    feature_has_target_date [.vstr "valid_from=2024-05-02T00:00Z"] "2024-05-02" = false := by
  decide

/-- C10: both date extraction and target matching only recognize
word-boundary-delimited substrings of shape `20dd-dd-dd`: every scanner hit
has that shape (so its year is in 2000–2099) and occurs delimited by word
boundaries; a matched target likewise; and every extracted date is the
parse of such a hit. -/
theorem date_pattern_word_boundary :
    (∀ s hit, hit ∈ findall s → shape10 hit.data = true ∧ occursBounded s hit) ∧
      (∀ props target, feature_has_target_date props target = true →
        shape10 target.data = true ∧
          ∃ s, s ∈ props.filterMap pvalToString ∧ occursBounded s target) ∧
      (∀ props dt, dt ∈ extract_dates_from_properties props →
        ∃ s hit, s ∈ props.filterMap pvalToString ∧ hit ∈ findall s ∧
          shape10 hit.data = true ∧ occursBounded s hit ∧ parse_date_ymd hit = some dt) := by
  refine ⟨fun s hit h => findall_sound s hit h, ?_, ?_⟩
  · intro props target h
    obtain ⟨s, hs, hmem⟩ := (feature_match_elem_iff props target).mp h
    obtain ⟨hsh, hocc⟩ := findall_sound s target hmem
    exact ⟨hsh, s, hs, hocc⟩
  · intro props dt h
    obtain ⟨s, hs, hit, hmem, hp⟩ := (mem_extract_iff props dt).mp h
    obtain ⟨hsh, hocc⟩ := findall_sound s hit hmem
    exact ⟨s, hit, hs, hmem, hsh, hocc, hp⟩

/-- Witness for C10 at a concrete input. -/
theorem date_pattern_word_boundary_witness :
    shape10 ("2024-05-02" : String).data = true ∧
      ∃ s, s ∈ ([PValue.vstr "on 2024-05-02 pass"].filterMap pvalToString) ∧
        occursBounded s "2024-05-02" :=
  date_pattern_word_boundary.2.1 [.vstr "on 2024-05-02 pass"] "2024-05-02" (by decide)

/-! ### The coverage union and the guarded percentage readout -/

/-- When no date-matching feature of a satellite intersects the AOI, the
iteration leaves the accumulator unchanged. -/
theorem sat_contribution_no_contrib {G : Type} (inter : G → Bool)
    (subUnion : List G → G) (gUnion : G → G → G) (acc : Option G) (sat : SatLayer G)
    (hno : ∀ f ∈ sat.feats, ∀ d, sat.refDay = some d →
      feature_has_target_date f.1 d = true → inter f.2 = false) :
    sat_contribution true inter subUnion gUnion acc sat = acc := by
  simp only [sat_contribution]
  cases hrd : sat.refDay with
  | none => rfl
  | some d =>
    dsimp only
    by_cases hfe : sat.feats.isEmpty = true
    · rw [if_pos hfe]
    · rw [if_neg hfe]
      by_cases hk : (sat.feats.filter (fun f => feature_has_target_date f.1 d)).isEmpty = true
      · rw [if_pos hk]
      · rw [if_neg hk]
        have hsub : ((sat.feats.filter (fun f => feature_has_target_date f.1 d)).filter
            (fun f => inter f.2)).isEmpty = true := by
          rw [List.isEmpty_iff, List.filter_eq_nil_iff]
          intro f hf
          have hm := List.mem_filter.mp hf
          simp [hno f hm.1 d hrd hm.2]
        rw [if_pos trivial]
        rw [if_pos hsub]

/-- When no date-matching feature of any satellite intersects the AOI, the
loop never touches the accumulator. -/
theorem coverage_union_loop_no_contrib {G : Type} (inter : G → Bool)
    (subUnion : List G → G) (gUnion : G → G → G) :
    ∀ (sats : List (SatLayer G)) (acc : Option G),
      (∀ sat ∈ sats, ∀ f ∈ sat.feats, ∀ d, sat.refDay = some d →
        feature_has_target_date f.1 d = true → inter f.2 = false) →
      coverage_union_loop true inter subUnion gUnion acc sats = acc := by
  intro sats
  induction sats with
  | nil =>
    intro acc _
    rfl
  | cons sat rest ih =>
    intro acc hno
    have hstep : sat_contribution true inter subUnion gUnion acc sat = acc :=
      sat_contribution_no_contrib inter subUnion gUnion acc sat
        (fun f hf d hd hm => hno sat (List.mem_cons_self sat rest) f hf d hd hm)
    show coverage_union_loop true inter subUnion gUnion
      (sat_contribution true inter subUnion gUnion acc sat) rest = acc
    rw [hstep]
    exact ih acc fun s hs f hf d hd hm => hno s (List.mem_cons_of_mem sat hs) f hf d hd hm

/-- C9: the percentage readout appears only when the AOI is present and
the coverage union received at least one contribution; when no filtered
feature of any satellite intersects the AOI, the union stays `None` and no
readout (not even `0.00%`) is produced; and a failing area computation
(a swallowed exception) also suppresses the readout. -/
theorem coverage_percent_guarded {G Q : Type} (inter : G → Bool) (subUnion : List G → G)
    (gUnion : G → G → G) (sats : List (SatLayer G)) (pct : G → Option Q) :
    (∀ (aoiIsSome : Bool) (cov : Option G) (q : Q),
        coverage_readout aoiIsSome cov pct = some q →
          aoiIsSome = true ∧ ∃ g, cov = some g ∧ pct g = some q) ∧
      ((∀ sat ∈ sats, ∀ f ∈ sat.feats, ∀ d, sat.refDay = some d →
          feature_has_target_date f.1 d = true → inter f.2 = false) →
        coverage_union_loop true inter subUnion gUnion none sats = none ∧
          coverage_readout true (coverage_union_loop true inter subUnion gUnion none sats) pct
            = none) ∧
      ∀ (aoiIsSome : Bool) (cov : Option G), (∀ g, cov = some g → pct g = none) →
        coverage_readout aoiIsSome cov pct = none := by
  refine ⟨?_, ?_, ?_⟩
  · intro b cov q h
    cases b with
    | false => simp [coverage_readout] at h
    | true =>
      cases cov with
      | none => simp [coverage_readout] at h
      | some g =>
        simp only [coverage_readout, if_true] at h
        exact ⟨rfl, g, rfl, h⟩
  · intro hno
    have hu := coverage_union_loop_no_contrib inter subUnion gUnion sats none hno
    refine ⟨hu, ?_⟩
    rw [hu]
    rfl
  · intro b cov hfail
    cases b with
    | false => rfl
    | true =>
      cases cov with
      | none => rfl
      | some g =>
        simp only [coverage_readout, if_true]
        exact hfail g rfl

/-- Witness for C9 at a concrete instantiation: one satellite whose only
feature matches the date but intersects nothing — the union stays `None`
and the readout is omitted. -/
theorem coverage_percent_guarded_witness :
    coverage_union_loop true (fun _ : Nat => false) (fun _ => 0) (fun a _ => a) none
        [⟨some "2024-05-02", [([PValue.vstr "x 2024-05-02 y"], 5)]⟩] = none ∧
      coverage_readout true
        (coverage_union_loop true (fun _ : Nat => false) (fun _ => 0) (fun a _ => a) none
          [⟨some "2024-05-02", [([PValue.vstr "x 2024-05-02 y"], 5)]⟩])
        (fun _ : Nat => (none : Option Nat)) = none :=
  (coverage_percent_guarded (fun _ : Nat => false) (fun _ => 0) (fun a _ => a)
    [⟨some "2024-05-02", [([PValue.vstr "x 2024-05-02 y"], 5)]⟩]
    (fun _ : Nat => (none : Option Nat))).2.1 (fun _ _ _ _ _ _ _ => rfl)

end SentinelApp

-- regex model sanity checks
example : SentinelApp.findall "valid_from=2024-05-02T00:00Z" = [] := by decide
example : SentinelApp.findall "a 2024-05-02 b" = ["2024-05-02"] := by decide
example : SentinelApp.findall "2001-01-2024-05-02" = ["2024-05-02"] := by decide
example : SentinelApp.findall "x2024-05-02" = [] := by decide
example : SentinelApp.findall "2024-13-45 2024-05-02" = ["2024-13-45", "2024-05-02"] := by
  decide

-- quick sanity examples for the calendar arithmetic
example : SentinelApp.daysFromCivil 1970 1 1 = 0 := by decide
example : SentinelApp.daysFromCivil 2024 1 1 = 19723 := by decide
example : SentinelApp.daysFromCivil 2024 1 13 - SentinelApp.daysFromCivil 2024 1 1 = 12 := by
  decide
example : SentinelApp.daysFromCivil 2024 3 1 - SentinelApp.daysFromCivil 2024 2 28 = 2 := by
  decide
